import Mathlib

/-!
# Verification of the wafer ingestion core

A shallow embedding of the wafer repository's ingestion pipeline
(`internal/ingest/`: `chunker.go`, `embedder.go`, `writer.go`,
`processor.go`) together with proofs about its chunking algorithm,
embedding-retry policy, record writer, and orchestration loop.

Strings are modelled as `List Char`; Go `int` counters are `Nat`
(all the counters involved are non-negative and never overflow in the
modelled domain); `float64` payloads are `Float` values that are carried
around but never computed with.  External effects (the HTTP embedding
service, the filesystem, the output file handle) are modelled as
explicit environment data threaded through the functions.
-/

namespace Wafer

/-! ## Chunker (`internal/ingest/chunker.go`) -/

/-- Whitespace predicate, modelling Go's `unicode.IsSpace` as used by
`strings.TrimSpace` and `bufio.ScanWords` (ASCII fragment: space, tab,
newline, vertical tab, form feed, carriage return). -/
def isSpace (c : Char) : Bool :=
  c = ' ' || c = '\t' || c = '\n' || c = Char.ofNat 11 || c = Char.ofNat 12 || c = '\r'

/-- Alphanumeric predicate, modelling Go's
`unicode.IsLetter(r) || unicode.IsDigit(r)` (ASCII fragment). -/
def isAlphaNum (c : Char) : Bool :=
  c.isAlpha || c.isDigit

/-- `strings.TrimSpace`: drop leading and trailing whitespace. -/
def trimC (l : List Char) : List Char :=
  ((l.dropWhile isSpace).reverse.dropWhile isSpace).reverse

/-- `Chunker.isValidWord`: a word is valid when it is non-empty and
contains at least one letter or digit. -/
def isValidWord (w : List Char) : Bool :=
  if w = [] then false else w.any isAlphaNum

/-- Worker loop for whitespace tokenization, modelling the
`bufio.Scanner` with `bufio.ScanWords` split function: `acc` holds the
(reversed) characters of the word currently being scanned. -/
def splitWordsAux : List Char → List Char → List (List Char)
  | [], acc => if acc = [] then [] else [acc.reverse]
  | c :: cs, acc =>
    if isSpace c then
      if acc = [] then splitWordsAux cs []
      else acc.reverse :: splitWordsAux cs []
    else splitWordsAux cs (c :: acc)

/-- Whitespace-delimited tokenization (`bufio.ScanWords`): the maximal
non-whitespace runs of the input, in order. -/
def splitWords (l : List Char) : List (List Char) :=
  splitWordsAux l []

/-- `Chunker.tokenizeWords`: scan whitespace-delimited tokens, keeping
only the valid ones. -/
def tokenizeWords (text : List Char) : List (List Char) :=
  (splitWords text).filter isValidWord

/-- `strings.Join(words, " ")`. -/
def joinWords : List (List Char) → List Char
  | [] => []
  | [w] => w
  | w :: ws => w ++ ' ' :: joinWords ws

/-- A text chunk with metadata (`ingest.Chunk`). -/
structure Chunk where
  Text : List Char
  WordCount : Nat
  Index : Nat
deriving Repr, DecidableEq

/-- The word groups visited by the loop
`for i := 0; i < len(words); i += c.chunkSize` in `ChunkText`:
consecutive slices `words[i:min(i+S, len(words))]`.  For `S = 0` the Go
loop would not terminate; the configuration layer guarantees `S > 0`
(`chunk target size (positive integer)`), and we return `[]` in that
unreachable case so that the function is total. -/
def chunkGroups (S : Nat) : List α → List (List α)
  | [] => []
  | x :: xs =>
    if S = 0 then []
    else (x :: xs).take S :: chunkGroups S ((x :: xs).drop S)
termination_by l => l.length
decreasing_by
  rename_i h
  simp only [List.length_drop, List.length_cons]
  omega

/-- The chunk-emitting loop body of `ChunkText`: join each group with
single spaces, trim, skip the group if the result is empty (without
advancing the index), otherwise emit a chunk and advance the index. -/
def buildChunks : List (List (List Char)) → Nat → List Chunk
  | [], _ => []
  | g :: gs, idx =>
    let chunkText := trimC (joinWords g)
    if chunkText = [] then buildChunks gs idx
    else ⟨chunkText, g.length, idx⟩ :: buildChunks gs (idx + 1)

/-- `Chunker.ChunkText`: trim the text, tokenize it, and either return
no chunks (nothing left), a single chunk holding the whole trimmed text
(word count within the target size), or one chunk per group of
`chunkSize` words. -/
def ChunkText (chunkSize : Nat) (text : List Char) : List Chunk :=
  let text := trimC text
  if text = [] then []
  else
    let words := tokenizeWords text
    if words = [] then []
    else if words.length ≤ chunkSize then
      [⟨text, words.length, 0⟩]
    else
      buildChunks (chunkGroups chunkSize words) 0

example : ChunkText 10 "hello".toList = [⟨"hello".toList, 1, 0⟩] := by decide
example : ChunkText 10 "".toList = [] := by decide
example : ChunkText 10 "  ... !! ".toList = [] := by decide
example : ChunkText 10 "hello , world".toList = [⟨"hello , world".toList, 2, 0⟩] := by
  decide

/-! ## Tokenizer lemmas -/

/-- A word as produced by the scanner: non-empty and whitespace-free. -/
def GoodWord (w : List Char) : Prop :=
  w ≠ [] ∧ ∀ c ∈ w, isSpace c = false

theorem splitWordsAux_sound (l : List Char) :
    ∀ acc, (∀ c ∈ acc, isSpace c = false) →
      ∀ w ∈ splitWordsAux l acc, GoodWord w := by
  induction l with
  | nil =>
    intro acc hacc w hw
    simp only [splitWordsAux] at hw
    split at hw
    · simp at hw
    · rename_i hne
      simp only [List.mem_singleton] at hw
      subst hw
      refine ⟨by simpa using hne, ?_⟩
      intro c hc
      exact hacc c (List.mem_reverse.mp hc)
  | cons c cs ih =>
    intro acc hacc w hw
    simp only [splitWordsAux] at hw
    by_cases hsp : isSpace c
    · rw [if_pos hsp] at hw
      split at hw
      · exact ih [] (by simp) w hw
      · rename_i hne
        rcases List.mem_cons.mp hw with h | h
        · subst h
          refine ⟨by simpa using hne, ?_⟩
          intro d hd
          exact hacc d (List.mem_reverse.mp hd)
        · exact ih [] (by simp) w h
    · rw [if_neg hsp] at hw
      refine ih (c :: acc) ?_ w hw
      intro d hd
      rcases List.mem_cons.mp hd with h | h
      · subst h; exact Bool.eq_false_iff.mpr hsp
      · exact hacc d h

theorem splitWords_sound (l : List Char) : ∀ w ∈ splitWords l, GoodWord w :=
  splitWordsAux_sound l [] (by simp)

theorem splitWordsAux_nospace_left (w : List Char)
    (hw : ∀ c ∈ w, isSpace c = false) :
    ∀ l acc, splitWordsAux (w ++ l) acc = splitWordsAux l (w.reverse ++ acc) := by
  induction w with
  | nil => intro l acc; simp
  | cons c cs ih =>
    intro l acc
    have hc : isSpace c = false := hw c (List.mem_cons_self c cs)
    simp only [List.cons_append, splitWordsAux, hc, Bool.false_eq_true, if_false,
      List.append_eq]
    rw [ih (fun d hd => hw d (List.mem_cons_of_mem c hd)) l (c :: acc)]
    simp

theorem splitWords_join (ws : List (List Char)) (h : ∀ w ∈ ws, GoodWord w) :
    splitWords (joinWords ws) = ws := by
  induction ws with
  | nil => rfl
  | cons w ws ih =>
    obtain ⟨hwne, hwns⟩ := h w (List.mem_cons_self w ws)
    cases ws with
    | nil =>
      show splitWordsAux (joinWords [w]) [] = [w]
      rw [show joinWords [w] = w from rfl, ← List.append_nil w,
        splitWordsAux_nospace_left w hwns [] []]
      simp only [splitWordsAux, List.append_nil]
      rw [if_neg (by simpa using hwne)]
      simp
    | cons v vs =>
      show splitWordsAux (w ++ ' ' :: joinWords (v :: vs)) [] = w :: v :: vs
      rw [splitWordsAux_nospace_left w hwns (' ' :: joinWords (v :: vs)) []]
      simp only [splitWordsAux, List.append_nil]
      rw [if_pos (show isSpace ' ' = true by decide),
        if_neg (by simpa using hwne), List.reverse_reverse]
      exact congrArg (w :: ·) (ih (fun u hu => h u (List.mem_cons_of_mem w hu)))

/-! ## Join lemmas -/

theorem joinWords_cons_cons (w v : List Char) (vs : List (List Char)) :
    joinWords (w :: v :: vs) = w ++ ' ' :: joinWords (v :: vs) := rfl

theorem joinWords_ne_nil (ws : List (List Char)) (hws : ws ≠ [])
    (h : ∀ w ∈ ws, w ≠ []) : joinWords ws ≠ [] := by
  cases ws with
  | nil => exact absurd rfl hws
  | cons w vs =>
    cases vs with
    | nil => exact h w (List.mem_cons_self w [])
    | cons v vs =>
      rw [joinWords_cons_cons]
      simp [h w (List.mem_cons_self w _)]

theorem joinWords_head?_nospace (ws : List (List Char))
    (h : ∀ w ∈ ws, GoodWord w) :
    ∀ c, (joinWords ws).head? = some c → isSpace c = false := by
  cases ws with
  | nil => intro c hc; simp [joinWords] at hc
  | cons w vs =>
    obtain ⟨hne, hns⟩ := h w (List.mem_cons_self w vs)
    intro c hc
    have hhead : (joinWords (w :: vs)).head? = w.head? := by
      cases vs with
      | nil => rfl
      | cons v vs =>
        rw [joinWords_cons_cons]
        cases w with
        | nil => exact absurd rfl hne
        | cons a as => simp
    rw [hhead] at hc
    exact hns c (List.mem_of_mem_head? hc)

theorem joinWords_getLast?_nospace (ws : List (List Char))
    (h : ∀ w ∈ ws, GoodWord w) :
    ∀ c, (joinWords ws).getLast? = some c → isSpace c = false := by
  induction ws with
  | nil => intro c hc; simp [joinWords] at hc
  | cons w vs ih =>
    intro c hc
    cases vs with
    | nil =>
      obtain ⟨hne, hns⟩ := h w (List.mem_cons_self w [])
      exact hns c (List.mem_of_mem_getLast? hc)
    | cons v vs =>
      rw [joinWords_cons_cons, List.getLast?_append_cons] at hc
      have hvs : joinWords (v :: vs) ≠ [] :=
        joinWords_ne_nil (v :: vs) (by simp)
          (fun u hu => (h u (List.mem_cons_of_mem w hu)).1)
      have : (joinWords (v :: vs)).getLast? = some c := by
        cases hj : joinWords (v :: vs) with
        | nil => exact absurd hj hvs
        | cons x xs => rw [hj] at hc; simpa [List.getLast?_cons_cons] using hc
      exact ih (fun u hu => h u (List.mem_cons_of_mem w hu)) c this

theorem joinWords_append (xs ys : List (List Char)) (hx : xs ≠ []) (hy : ys ≠ []) :
    joinWords (xs ++ ys) = joinWords xs ++ ' ' :: joinWords ys := by
  induction xs with
  | nil => exact absurd rfl hx
  | cons w vs ih =>
    cases vs with
    | nil =>
      cases ys with
      | nil => exact absurd rfl hy
      | cons y ys => simp [joinWords_cons_cons, joinWords]
    | cons v vs' =>
      calc joinWords ((w :: v :: vs') ++ ys)
          = w ++ ' ' :: joinWords ((v :: vs') ++ ys) := by
            exact joinWords_cons_cons w v (vs' ++ ys)
        _ = w ++ ' ' :: (joinWords (v :: vs') ++ ' ' :: joinWords ys) := by
            rw [ih (by simp)]
        _ = joinWords (w :: v :: vs') ++ ' ' :: joinWords ys := by
            rw [joinWords_cons_cons w v vs']
            simp [List.append_assoc]

theorem joinWords_map_flatten (gs : List (List (List Char)))
    (h : ∀ g ∈ gs, g ≠ []) :
    joinWords (gs.map joinWords) = joinWords gs.flatten := by
  induction gs with
  | nil => rfl
  | cons g gs ih =>
    cases gs with
    | nil => simp [joinWords]
    | cons g2 gs' =>
      have hg : g ≠ [] := h g (List.mem_cons_self g _)
      have hrest : (g2 :: gs').flatten ≠ [] := by
        intro hj
        rw [List.flatten_eq_nil_iff] at hj
        exact absurd (hj g2 (List.mem_cons_self g2 gs'))
          (h g2 (List.mem_cons_of_mem g (List.mem_cons_self g2 gs')))
      calc joinWords ((g :: g2 :: gs').map joinWords)
          = joinWords g ++ ' ' :: joinWords ((g2 :: gs').map joinWords) := by
            simp only [List.map_cons]
            exact joinWords_cons_cons _ _ _
        _ = joinWords g ++ ' ' :: joinWords (g2 :: gs').flatten := by
            rw [ih (fun x hx => h x (List.mem_cons_of_mem g hx))]
        _ = joinWords (g ++ (g2 :: gs').flatten) := by
            rw [joinWords_append g _ hg hrest]
        _ = joinWords (g :: g2 :: gs').flatten := by
            simp [List.flatten]

/-! ## Trim lemmas -/

theorem head?_dropWhile_not (p : Char → Bool) (l : List Char) :
    ∀ c, (l.dropWhile p).head? = some c → p c = false := by
  induction l with
  | nil => intro c hc; simp at hc
  | cons a l ih =>
    intro c hc
    rw [List.dropWhile_cons] at hc
    by_cases hp : p a
    · rw [if_pos hp] at hc; exact ih c hc
    · rw [if_neg hp] at hc
      simp only [List.head?_cons, Option.some.injEq] at hc
      subst hc
      exact Bool.eq_false_iff.mpr hp

theorem getLast?_dropWhile (p : Char → Bool) (l : List Char)
    (h : l.dropWhile p ≠ []) : (l.dropWhile p).getLast? = l.getLast? := by
  induction l with
  | nil => simp at h
  | cons a l ih =>
    rw [List.dropWhile_cons]
    by_cases hp : p a
    · rw [List.dropWhile_cons, if_pos hp] at h
      have hl : l ≠ [] := by
        intro hnil; rw [hnil] at h; simp at h
      rw [if_pos hp, ih h]
      cases l with
      | nil => exact absurd rfl hl
      | cons b l' => rw [List.getLast?_cons_cons]
    · rw [if_neg hp]

theorem trimC_noop (l : List Char)
    (h1 : ∀ c, l.head? = some c → isSpace c = false)
    (h2 : ∀ c, l.getLast? = some c → isSpace c = false) :
    trimC l = l := by
  have hd : l.dropWhile isSpace = l := by
    cases l with
    | nil => rfl
    | cons a l =>
      rw [List.dropWhile_cons, if_neg ?_]
      intro hp
      have := h1 a (by simp)
      rw [this] at hp
      exact absurd hp (by simp)
  have hd2 : l.reverse.dropWhile isSpace = l.reverse := by
    cases hr : l.reverse with
    | nil => rfl
    | cons a r =>
      rw [List.dropWhile_cons, if_neg ?_]
      intro hp
      have ha : l.getLast? = some a := by
        rw [← List.head?_reverse, hr]; rfl
      have := h2 a ha
      rw [this] at hp
      exact absurd hp (by simp)
  unfold trimC
  rw [hd, hd2, List.reverse_reverse]

theorem trimC_head?_nospace (l : List Char) :
    ∀ c, (trimC l).head? = some c → isSpace c = false := by
  intro c hc
  unfold trimC at hc
  rw [List.head?_reverse] at hc
  set m := (l.dropWhile isSpace).reverse with hm
  have hne : m.dropWhile isSpace ≠ [] := by
    intro hnil
    rw [hnil] at hc
    simp at hc
  rw [getLast?_dropWhile isSpace m hne] at hc
  rw [hm, List.getLast?_reverse] at hc
  exact head?_dropWhile_not isSpace l c hc

theorem trimC_getLast?_nospace (l : List Char) :
    ∀ c, (trimC l).getLast? = some c → isSpace c = false := by
  intro c hc
  unfold trimC at hc
  rw [List.getLast?_reverse] at hc
  exact head?_dropWhile_not isSpace _ c hc

theorem trimC_idem (l : List Char) : trimC (trimC l) = trimC l :=
  trimC_noop (trimC l) (trimC_head?_nospace l) (trimC_getLast?_nospace l)

theorem trimC_join_good (ws : List (List Char)) (h : ∀ w ∈ ws, GoodWord w) :
    trimC (joinWords ws) = joinWords ws :=
  trimC_noop (joinWords ws) (joinWords_head?_nospace ws h)
    (joinWords_getLast?_nospace ws h)

/-! ## tokenizeWords lemmas -/

theorem tokenizeWords_good (text : List Char) :
    ∀ w ∈ tokenizeWords text, GoodWord w := by
  intro w hw
  exact splitWords_sound text w (List.mem_of_mem_filter hw)

theorem tokenizeWords_valid (text : List Char) :
    ∀ w ∈ tokenizeWords text, isValidWord w = true := by
  intro w hw
  exact List.of_mem_filter hw

theorem tokenizeWords_join (ws : List (List Char))
    (hg : ∀ w ∈ ws, GoodWord w) (hv : ∀ w ∈ ws, isValidWord w = true) :
    tokenizeWords (joinWords ws) = ws := by
  unfold tokenizeWords
  rw [splitWords_join ws hg]
  exact List.filter_eq_self.mpr hv

/-! ## chunkGroups lemmas -/

theorem chunkGroups_nil {α : Type} (S : Nat) : chunkGroups S ([] : List α) = [] := by
  simp [chunkGroups]

theorem chunkGroups_cons {α : Type} (S : Nat) (hS : S ≠ 0) (x : α) (xs : List α) :
    chunkGroups S (x :: xs) = (x :: xs).take S :: chunkGroups S ((x :: xs).drop S) := by
  rw [chunkGroups, if_neg hS]

theorem chunkGroups_flatten {α : Type} (S : Nat) (hS : S ≠ 0) (l : List α) :
    (chunkGroups S l).flatten = l := by
  induction l using chunkGroups.induct S with
  | case1 => simp [chunkGroups]
  | case2 x xs h => exact absurd h hS
  | case3 x xs h ih =>
    rw [chunkGroups_cons S hS x xs]
    simp only [List.flatten_cons, ih]
    exact List.take_append_drop S (x :: xs)

theorem chunkGroups_cons_ne_nil {α : Type} (S : Nat) (hS : S ≠ 0) (x : α)
    (xs : List α) : chunkGroups S (x :: xs) ≠ [] := by
  rw [chunkGroups_cons S hS x xs]
  simp

theorem chunkGroups_mem_ne_nil {α : Type} (S : Nat) (hS : S ≠ 0) (l : List α) :
    ∀ g ∈ chunkGroups S l, g ≠ [] := by
  induction l using chunkGroups.induct S with
  | case1 => simp [chunkGroups]
  | case2 x xs h => exact absurd h hS
  | case3 x xs h ih =>
    intro g hg
    rw [chunkGroups_cons S hS x xs] at hg
    rcases List.mem_cons.mp hg with h1 | h1
    · subst h1
      obtain ⟨m, rfl⟩ := Nat.exists_eq_succ_of_ne_zero hS
      simp [List.take_succ_cons]
    · exact ih g h1

theorem chunkGroups_length {α : Type} (S : Nat) (hS : 0 < S) (l : List α) :
    (chunkGroups S l).length = (l.length + S - 1) / S := by
  induction l using chunkGroups.induct S with
  | case1 =>
    rw [chunkGroups_nil]
    symm
    simp only [List.length_nil, Nat.zero_add]
    exact Nat.div_eq_of_lt (by omega)
  | case2 x xs h => exact absurd h (by omega)
  | case3 x xs h ih =>
    rw [chunkGroups_cons S h x xs]
    rw [List.length_cons, ih, List.length_drop]
    rcases le_or_lt (x :: xs).length S with hle | hlt
    · have h1 : (x :: xs).length - S = 0 := by omega
      rw [h1]
      have h2 : (0 + S - 1) / S = 0 := Nat.div_eq_of_lt (by omega)
      have h3 : ((x :: xs).length + S - 1) / S = 1 := by
        have hpos : 0 < (x :: xs).length := by simp
        apply Nat.div_eq_of_lt_le <;> omega
      rw [h2, h3]
    · have h1 : (x :: xs).length - S + S - 1 = (x :: xs).length - 1 := by omega
      have h2 : (x :: xs).length + S - 1 = ((x :: xs).length - 1) + S := by omega
      rw [h1, h2, Nat.add_div_right _ hS]

theorem chunkGroups_dropLast_length {α : Type} (S : Nat) (hS : 0 < S) (l : List α) :
    ∀ g ∈ (chunkGroups S l).dropLast, g.length = S := by
  induction l using chunkGroups.induct S with
  | case1 => simp [chunkGroups]
  | case2 x xs h => exact absurd h (by omega)
  | case3 x xs h ih =>
    intro g hg
    rw [chunkGroups_cons S h x xs] at hg
    by_cases hlen : (x :: xs).length ≤ S
    · have hdrop : (x :: xs).drop S = [] := List.drop_eq_nil_of_le hlen
      rw [hdrop, chunkGroups_nil] at hg
      simp at hg
    · push_neg at hlen
      have hd_ne : (x :: xs).drop S ≠ [] := by
        intro hnil
        have hlen2 := congrArg List.length hnil
        rw [List.length_drop] at hlen2
        simp only [List.length_nil] at hlen2
        omega
      cases hd : (x :: xs).drop S with
      | nil => exact absurd hd hd_ne
      | cons y ys =>
        rw [hd] at hg
        have hne := chunkGroups_cons_ne_nil S (by omega) y ys
        cases hcg : chunkGroups S (y :: ys) with
        | nil => exact absurd hcg hne
        | cons c cs =>
          rw [hcg, List.dropLast_cons₂] at hg
          rcases List.mem_cons.mp hg with h1 | h1
          · subst h1
            rw [List.length_take]
            omega
          · apply ih g
            rw [hd, hcg]
            exact h1

theorem chunkGroups_getLast?_length {α : Type} (S : Nat) (hS : 0 < S) (l : List α) :
    l ≠ [] →
      ((chunkGroups S l).getLast?).map List.length
        = some (if l.length % S = 0 then S else l.length % S) := by
  induction l using chunkGroups.induct S with
  | case1 => intro hl; exact absurd rfl hl
  | case2 x xs h => exact absurd h (by omega)
  | case3 x xs h ih =>
    intro _
    rw [chunkGroups_cons S h x xs]
    by_cases hlen : (x :: xs).length ≤ S
    · have hdrop : (x :: xs).drop S = [] := List.drop_eq_nil_of_le hlen
      rw [hdrop, chunkGroups_nil]
      simp only [List.getLast?_singleton, Option.map_some', List.length_take]
      congr 1
      have hpos : 0 < (x :: xs).length := by simp
      rcases Nat.lt_or_ge (x :: xs).length S with hlt | hge
      · rw [if_neg, Nat.min_eq_right (Nat.le_of_lt hlt), Nat.mod_eq_of_lt hlt]
        rw [Nat.mod_eq_of_lt hlt]
        omega
      · have heq : (x :: xs).length = S := Nat.le_antisymm hlen hge
        rw [heq, if_pos (Nat.mod_self S), Nat.min_self]
    · push_neg at hlen
      have hd_ne : (x :: xs).drop S ≠ [] := by
        intro hnil
        have hlen2 := congrArg List.length hnil
        rw [List.length_drop] at hlen2
        simp only [List.length_nil] at hlen2
        omega
      have hne : chunkGroups S ((x :: xs).drop S) ≠ [] := by
        cases hd : (x :: xs).drop S with
        | nil => exact absurd hd hd_ne
        | cons y ys => exact chunkGroups_cons_ne_nil S (by omega) y ys
      cases hcg : chunkGroups S ((x :: xs).drop S) with
      | nil => exact absurd hcg hne
      | cons c cs =>
        rw [List.getLast?_cons_cons, ← hcg, ih hd_ne]
        congr 1
        rw [List.length_drop]
        have hmod : ((x :: xs).length - S) % S = (x :: xs).length % S := by
          conv_rhs => rw [← Nat.sub_add_cancel (Nat.le_of_lt hlen)]
          rw [Nat.add_mod_right]
        rw [hmod]

/-! ## buildChunks lemmas -/

/-- The no-skip condition: trimming the joined group is the identity and
the joined group is non-empty, so every group is emitted as a chunk. -/
def EmitAll (gs : List (List (List Char))) : Prop :=
  ∀ g ∈ gs, trimC (joinWords g) = joinWords g ∧ joinWords g ≠ []

theorem buildChunks_texts (gs : List (List (List Char))) (idx : Nat)
    (h : EmitAll gs) :
    (buildChunks gs idx).map Chunk.Text = gs.map joinWords := by
  induction gs generalizing idx with
  | nil => rfl
  | cons g gs ih =>
    obtain ⟨ht, hne⟩ := h g (List.mem_cons_self g gs)
    simp only [buildChunks, ht, if_neg hne, List.map_cons]
    exact congrArg (joinWords g :: ·) (ih (idx + 1) (fun u hu => h u (List.mem_cons_of_mem g hu)))

theorem buildChunks_wordCounts (gs : List (List (List Char))) (idx : Nat)
    (h : EmitAll gs) :
    (buildChunks gs idx).map Chunk.WordCount = gs.map List.length := by
  induction gs generalizing idx with
  | nil => rfl
  | cons g gs ih =>
    obtain ⟨ht, hne⟩ := h g (List.mem_cons_self g gs)
    simp only [buildChunks, ht, if_neg hne, List.map_cons]
    exact congrArg (g.length :: ·) (ih (idx + 1) (fun u hu => h u (List.mem_cons_of_mem g hu)))

theorem buildChunks_indices (gs : List (List (List Char))) (idx : Nat)
    (h : EmitAll gs) :
    (buildChunks gs idx).map Chunk.Index = List.range' idx gs.length := by
  induction gs generalizing idx with
  | nil => rfl
  | cons g gs ih =>
    obtain ⟨ht, hne⟩ := h g (List.mem_cons_self g gs)
    simp only [buildChunks, ht, if_neg hne, List.map_cons, List.length_cons,
      List.range'_succ]
    exact congrArg (idx :: ·) (ih (idx + 1) (fun u hu => h u (List.mem_cons_of_mem g hu)))

theorem buildChunks_index_ge (gs : List (List (List Char))) (idx : Nat) :
    ∀ c ∈ buildChunks gs idx, idx ≤ c.Index := by
  induction gs generalizing idx with
  | nil => simp [buildChunks]
  | cons g gs ih =>
    intro c hc
    simp only [buildChunks] at hc
    split at hc
    · exact ih idx c hc
    · rcases List.mem_cons.mp hc with h1 | h1
      · subst h1; exact Nat.le_refl idx
      · exact Nat.le_of_succ_le (ih (idx + 1) c h1)

theorem buildChunks_index_pairwise (gs : List (List (List Char))) (idx : Nat) :
    ((buildChunks gs idx).map Chunk.Index).Pairwise (· < ·) := by
  induction gs generalizing idx with
  | nil => simp [buildChunks]
  | cons g gs ih =>
    simp only [buildChunks]
    split
    · exact ih idx
    · rw [List.map_cons, List.pairwise_cons]
      constructor
      · intro j hj
        obtain ⟨c, hc, rfl⟩ := List.mem_map.mp hj
        exact Nat.lt_of_succ_le (buildChunks_index_ge gs (idx + 1) c hc)
      · exact ih (idx + 1)

/-! ## ChunkText characterization -/

theorem tokenizeWords_nil : tokenizeWords [] = [] := rfl

theorem ChunkText_single (S : Nat) (text : List Char)
    (h0 : tokenizeWords (trimC text) ≠ [])
    (hle : (tokenizeWords (trimC text)).length ≤ S) :
    ChunkText S text = [⟨trimC text, (tokenizeWords (trimC text)).length, 0⟩] := by
  have htne : trimC text ≠ [] := by
    intro h
    rw [h, tokenizeWords_nil] at h0
    exact h0 rfl
  unfold ChunkText
  rw [if_neg htne, if_neg h0, if_pos hle]

theorem ChunkText_multi (S : Nat) (text : List Char)
    (hgt : S < (tokenizeWords (trimC text)).length) :
    ChunkText S text = buildChunks (chunkGroups S (tokenizeWords (trimC text))) 0 := by
  have h0 : tokenizeWords (trimC text) ≠ [] := by
    intro h
    rw [h] at hgt
    simp at hgt
  have htne : trimC text ≠ [] := by
    intro h
    rw [h, tokenizeWords_nil] at h0
    exact h0 rfl
  unfold ChunkText
  rw [if_neg htne, if_neg h0, if_neg (by omega)]

theorem chunkGroups_words_emitAll (S : Nat) (hS : S ≠ 0) (words : List (List Char))
    (h : ∀ w ∈ words, GoodWord w) :
    EmitAll (chunkGroups S words) := by
  intro g hg
  have hgne : g ≠ [] := chunkGroups_mem_ne_nil S hS words g hg
  have hgw : ∀ w ∈ g, GoodWord w := by
    intro w hw
    apply h
    rw [← chunkGroups_flatten S hS words]
    exact List.mem_flatten.mpr ⟨g, hg, hw⟩
  exact ⟨trimC_join_good g hgw, joinWords_ne_nil g hgne (fun w hw => (hgw w hw).1)⟩

theorem buildChunks_length_of_emitAll (gs : List (List (List Char))) (idx : Nat)
    (h : EmitAll gs) : (buildChunks gs idx).length = gs.length := by
  have h1 := congrArg List.length (buildChunks_wordCounts gs idx h)
  simpa using h1

/-! ## Claim theorems about the chunker -/

/-- C1: for every text whose filtered word count `W` is non-zero and every
target size `S > 0`, `ChunkText` returns `ceil(W/S)` chunks when `W > S`
and exactly one chunk otherwise (note `ceil(W/S) = 1` exactly when
`0 < W ≤ S`, so the count is `ceil(W/S) = (W + S - 1) / S` in every
case), every chunk except possibly the last has `WordCount = S`, and the
last chunk has `WordCount = W mod S`, or `S` when `S` divides `W`. -/
theorem chunkText_count_spec (S : Nat) (text : List Char) (hS : 0 < S)
    (hW : 0 < (tokenizeWords (trimC text)).length) :
    (ChunkText S text).length = ((tokenizeWords (trimC text)).length + S - 1) / S
    ∧ (∀ c ∈ (ChunkText S text).dropLast, c.WordCount = S)
    ∧ ((ChunkText S text).getLast?).map Chunk.WordCount
        = some (if (tokenizeWords (trimC text)).length % S = 0 then S
                else (tokenizeWords (trimC text)).length % S) := by
  have h0 : tokenizeWords (trimC text) ≠ [] := by
    intro h
    rw [h] at hW
    simp at hW
  by_cases hle : (tokenizeWords (trimC text)).length ≤ S
  · rw [ChunkText_single S text h0 hle]
    refine ⟨?_, ?_, ?_⟩
    · show 1 = _
      symm
      apply Nat.div_eq_of_lt_le <;> omega
    · intro c hc
      simp at hc
    · simp only [List.getLast?_singleton, Option.map_some']
      congr 1
      rcases eq_or_lt_of_le hle with heq | hlt
      · rw [heq, Nat.mod_self, if_pos rfl]
      · rw [Nat.mod_eq_of_lt hlt, if_neg (by omega)]
  · push_neg at hle
    rw [ChunkText_multi S text hle]
    have hgood : ∀ w ∈ tokenizeWords (trimC text), GoodWord w :=
      tokenizeWords_good (trimC text)
    have hemit : EmitAll (chunkGroups S (tokenizeWords (trimC text))) :=
      chunkGroups_words_emitAll S (by omega) _ hgood
    refine ⟨?_, ?_, ?_⟩
    · rw [buildChunks_length_of_emitAll _ 0 hemit,
        chunkGroups_length S hS (tokenizeWords (trimC text))]
    · intro c hc
      have hmem : c.WordCount
          ∈ ((buildChunks (chunkGroups S (tokenizeWords (trimC text))) 0).dropLast).map
              Chunk.WordCount := List.mem_map_of_mem Chunk.WordCount hc
      rw [List.map_dropLast, buildChunks_wordCounts _ 0 hemit,
        ← List.map_dropLast] at hmem
      obtain ⟨g, hg, hgc⟩ := List.mem_map.mp hmem
      rw [← hgc]
      exact chunkGroups_dropLast_length S hS (tokenizeWords (trimC text)) g hg
    · have h1 := congrArg List.getLast? (buildChunks_wordCounts
        (chunkGroups S (tokenizeWords (trimC text))) 0 hemit)
      rw [List.getLast?_map, List.getLast?_map] at h1
      rw [h1]
      exact chunkGroups_getLast?_length S hS (tokenizeWords (trimC text)) h0

/-- Witness for C1: the two-word text `"hello world"` with target size 10
satisfies the hypotheses, and the theorem applies. -/
theorem chunkText_count_spec_witness :
    (ChunkText 10 "hello world".toList).length
        = ((tokenizeWords (trimC "hello world".toList)).length + 10 - 1) / 10
    ∧ (∀ c ∈ (ChunkText 10 "hello world".toList).dropLast, c.WordCount = 10)
    ∧ ((ChunkText 10 "hello world".toList).getLast?).map Chunk.WordCount
        = some (if (tokenizeWords (trimC "hello world".toList)).length % 10 = 0 then 10
                else (tokenizeWords (trimC "hello world".toList)).length % 10) :=
  chunkText_count_spec 10 "hello world".toList (by decide) (by decide)

/-- C4: for every text whose filtered word count is non-zero and at most
the target size, `ChunkText` emits exactly one chunk whose `Text` is the
whitespace-trimmed original input verbatim (in particular it still
contains any punctuation-only tokens that `tokenizeWords` filtered out),
whose `WordCount` is the filtered token count, and whose `Index` is 0. -/
theorem chunkText_single_chunk_verbatim (S : Nat) (text : List Char)
    (hW : 0 < (tokenizeWords (trimC text)).length)
    (hle : (tokenizeWords (trimC text)).length ≤ S) :
    ChunkText S text = [⟨trimC text, (tokenizeWords (trimC text)).length, 0⟩] := by
  have h0 : tokenizeWords (trimC text) ≠ [] := by
    intro h
    rw [h] at hW
    simp at hW
  exact ChunkText_single S text h0 hle

/-- Witness for C4: `"hello , world"` has filtered word count 2 (the
bare `","` token is dropped), yet its single chunk reproduces the full
original text, comma included. -/
theorem chunkText_single_chunk_verbatim_witness :
    0 < (tokenizeWords (trimC "hello , world".toList)).length
    ∧ (tokenizeWords (trimC "hello , world".toList)).length ≤ 10
    ∧ ChunkText 10 "hello , world".toList
        = [⟨trimC "hello , world".toList,
            (tokenizeWords (trimC "hello , world".toList)).length, 0⟩] :=
  ⟨by decide, by decide,
    chunkText_single_chunk_verbatim 10 "hello , world".toList (by decide) (by decide)⟩

/-- C5: for every input text and every (positive) target size, the chunk
`Index` values are exactly `0, 1, ..., n-1` in order, with no gaps and no
duplicates. -/
theorem chunkText_indices_contiguous (S : Nat) (text : List Char) (hS : 0 < S) :
    (ChunkText S text).map Chunk.Index = List.range (ChunkText S text).length := by
  by_cases ht : trimC text = []
  · have h : ChunkText S text = [] := by
      unfold ChunkText
      rw [if_pos ht]
    rw [h]
    rfl
  · by_cases h0 : tokenizeWords (trimC text) = []
    · have h : ChunkText S text = [] := by
        unfold ChunkText
        rw [if_neg ht, if_pos h0]
      rw [h]
      rfl
    · by_cases hle : (tokenizeWords (trimC text)).length ≤ S
      · rw [ChunkText_single S text h0 hle]
        rfl
      · push_neg at hle
        rw [ChunkText_multi S text hle]
        have hemit : EmitAll (chunkGroups S (tokenizeWords (trimC text))) :=
          chunkGroups_words_emitAll S (by omega) _ (tokenizeWords_good (trimC text))
        rw [buildChunks_indices _ 0 hemit, buildChunks_length_of_emitAll _ 0 hemit,
          List.range_eq_range']

/-- Witness for C5: target size 1 on a two-word text. -/
theorem chunkText_indices_contiguous_witness :
    (ChunkText 1 "hi there".toList).map Chunk.Index
      = List.range (ChunkText 1 "hi there".toList).length :=
  chunkText_indices_contiguous 1 "hi there".toList (by decide)

/-- C8: joining the chunk texts with single spaces and re-chunking with
the same target size reproduces the chunk list exactly (in particular the
same chunk word boundaries, so the claim's weaker statement — equality of
word groups modulo the final group length — holds as well). -/
theorem chunkText_rechunk_idempotent (S : Nat) (text : List Char) (hS : 0 < S) :
    ChunkText S (joinWords ((ChunkText S text).map Chunk.Text)) = ChunkText S text := by
  by_cases ht : trimC text = []
  · have h : ChunkText S text = [] := by
      unfold ChunkText
      rw [if_pos ht]
    rw [h]
    rfl
  · by_cases h0 : tokenizeWords (trimC text) = []
    · have h : ChunkText S text = [] := by
        unfold ChunkText
        rw [if_neg ht, if_pos h0]
      rw [h]
      rfl
    · by_cases hle : (tokenizeWords (trimC text)).length ≤ S
      · rw [ChunkText_single S text h0 hle]
        have hj : joinWords ([⟨trimC text, (tokenizeWords (trimC text)).length, 0⟩].map
            Chunk.Text) = trimC text := rfl
        rw [hj]
        have h0i : tokenizeWords (trimC (trimC text)) ≠ [] := by
          rw [trimC_idem]
          exact h0
        have hlei : (tokenizeWords (trimC (trimC text))).length ≤ S := by
          rw [trimC_idem]
          exact hle
        rw [ChunkText_single S (trimC text) h0i hlei, trimC_idem]
      · push_neg at hle
        rw [ChunkText_multi S text hle]
        have hgood : ∀ w ∈ tokenizeWords (trimC text), GoodWord w :=
          tokenizeWords_good (trimC text)
        have hvalid : ∀ w ∈ tokenizeWords (trimC text), isValidWord w = true :=
          tokenizeWords_valid (trimC text)
        have hemit : EmitAll (chunkGroups S (tokenizeWords (trimC text))) :=
          chunkGroups_words_emitAll S (by omega) _ hgood
        rw [buildChunks_texts _ 0 hemit,
          joinWords_map_flatten _ (chunkGroups_mem_ne_nil S (by omega) _),
          chunkGroups_flatten S (by omega) (tokenizeWords (trimC text))]
        have htj : trimC (joinWords (tokenizeWords (trimC text)))
            = joinWords (tokenizeWords (trimC text)) :=
          trimC_join_good _ hgood
        have htok : tokenizeWords (trimC (joinWords (tokenizeWords (trimC text))))
            = tokenizeWords (trimC text) := by
          rw [htj]
          exact tokenizeWords_join _ hgood hvalid
        rw [ChunkText_multi S (joinWords (tokenizeWords (trimC text)))
          (by rw [htok]; exact hle), htok]

/-- Witness for C8 at target size 2 on a concrete text. -/
theorem chunkText_rechunk_idempotent_witness :
    ChunkText 2 (joinWords ((ChunkText 2 "one two three".toList).map Chunk.Text))
      = ChunkText 2 "one two three".toList :=
  chunkText_rechunk_idempotent 2 "one two three".toList (by decide)

/-! ## Embedding client (`internal/ingest/embedder.go`)

The HTTP exchange is modelled by its observable outcome: either the
transport fails (`client.Do` returns an error), or a response arrives
with a status code and a body whose JSON decoding either fails or yields
a `[]float64`.  The two error paths of `requestEmbedding` that cannot
occur for this request (`json.Marshal` of a plain struct and
`http.NewRequestWithContext` with a constant method and a well-formed
URL never fail) are not modelled. -/

/-- Outcome of decoding the response body of one embedding request. -/
inductive DecodedBody where
  | malformed : DecodedBody
  | embedding : List Float → DecodedBody

/-- Observable outcome of one HTTP exchange. -/
inductive HttpOutcome where
  | netFailure : HttpOutcome
  | response : Nat → DecodedBody → HttpOutcome

/-- The error cases of `requestEmbedding`. -/
inductive ReqError where
  | netErr : ReqError
  | statusErr : Nat → ReqError
  | decodeErr : ReqError
  | emptyEmbedding : ReqError
deriving Repr, DecidableEq

/-- `Embedder.requestEmbedding`: a single request.  Faithful to the Go
checks, in source order: `client.Do` error; then
`resp.StatusCode != http.StatusOK` (i.e. `status ≠ 200` — note: not
"any 2xx"); then JSON decoding; then `len(embedding) == 0`. -/
def requestEmbedding (o : HttpOutcome) : Except ReqError (List Float) :=
  match o with
  | .netFailure => .error .netErr
  | .response status body =>
    if status ≠ 200 then .error (.statusErr status)
    else
      match body with
      | .malformed => .error .decodeErr
      | .embedding vals =>
        if vals.length = 0 then .error .emptyEmbedding else .ok vals

/-- Environment of one `GetEmbedding` call: the outcome each request
attempt would produce, and whether the cancellation context fires during
the backoff wait that precedes retry attempt `k ≥ 1`. -/
structure RetryEnv where
  request : Nat → Except ReqError (List Float)
  canceledDuringWait : Nat → Bool

/-- Result of `GetEmbedding`: a vector, the context's cancellation
error, or the aggregated "failed to get embedding after N attempts"
error wrapping the last underlying cause. -/
inductive EmbedResult where
  | ok : List Float → EmbedResult
  | ctxCanceled : EmbedResult
  | exhausted : Option ReqError → EmbedResult

/-- The retry loop of `GetEmbedding`
(`for attempt := 0; attempt <= e.retries; attempt++`), instrumented with
the number of requests actually issued and the list of backoff waits
completed (in nanoseconds, `backoff * 2^(attempt-1)` before retry
`attempt ≥ 1`).  A cancellation during a wait returns `ctx.Err()`
immediately. -/
def retryLoop (env : RetryEnv) (backoff retries : Nat) :
    Nat → Option ReqError → EmbedResult × Nat × List Nat
  | attempt, lastErr =>
    if _h : attempt ≤ retries then
      if 0 < attempt then
        if env.canceledDuringWait attempt then (.ctxCanceled, 0, [])
        else
          let w := backoff * 2 ^ (attempt - 1)
          match env.request attempt with
          | .ok v => (.ok v, 1, [w])
          | .error e =>
            let r := retryLoop env backoff retries (attempt + 1) (some e)
            (r.1, r.2.1 + 1, w :: r.2.2)
      else
        match env.request attempt with
        | .ok v => (.ok v, 1, [])
        | .error e =>
          let r := retryLoop env backoff retries (attempt + 1) (some e)
          (r.1, r.2.1 + 1, r.2.2)
    else (.exhausted lastErr, 0, [])
termination_by attempt _ => retries + 1 - attempt

/-- `NewEmbedder` defaults: `retries: 3`. -/
def defaultRetries : Nat := 3

/-- `NewEmbedder` defaults: `backoff: time.Second`, in nanoseconds. -/
def oneSecondNs : Nat := 1000000000

/-- `Embedder.GetEmbedding` under the default retry configuration,
returning the result together with the number of request attempts made
and the completed backoff waits. -/
def GetEmbedding (env : RetryEnv) : EmbedResult × Nat × List Nat :=
  retryLoop env oneSecondNs defaultRetries 0 none

/-! ## Single-request claim (C7) -/

/-- Counterexample to C7 as stated: `201 Created` is a 2xx status and
the body decodes to a well-formed non-empty array, yet a single
embedding request fails, because `requestEmbedding` compares the status
against `http.StatusOK` (exactly 200), not against the whole 2xx
class. -/
theorem requestEmbedding_2xx_counterexample :
    requestEmbedding (.response 201 (.embedding [(1 : Float)]))
      = .error (.statusErr 201) := rfl

/-- C7 amended (status class corrected from "non-2xx" to "not 200"):
a single embedding request returns an error exactly when the network
call fails, the response status is not 200, the body cannot be decoded,
or the decoded array is empty; every 200 response with a well-formed
non-empty array succeeds and returns that array. -/
theorem requestEmbedding_error_conditions (o : HttpOutcome) :
    ((∃ v, requestEmbedding o = .ok v) ↔
      (∃ vs, o = .response 200 (.embedding vs) ∧ vs ≠ []))
    ∧ (∀ vs, vs ≠ [] →
        requestEmbedding (.response 200 (.embedding vs)) = .ok vs) := by
  constructor
  · constructor
    · rintro ⟨v, hv⟩
      match o with
      | .netFailure => simp [requestEmbedding] at hv
      | .response status body =>
        by_cases hs : status = 200
        · subst hs
          match body with
          | .malformed => simp [requestEmbedding] at hv
          | .embedding vals =>
            refine ⟨vals, rfl, ?_⟩
            intro hnil
            subst hnil
            simp [requestEmbedding] at hv
        · simp [requestEmbedding, hs] at hv
    · rintro ⟨vs, rfl, hne⟩
      refine ⟨vs, ?_⟩
      simp [requestEmbedding, List.length_eq_zero, hne]
  · intro vs hne
    simp [requestEmbedding, List.length_eq_zero, hne]

/-- Witness for the amended C7: a 200 response with a singleton array
succeeds. -/
theorem requestEmbedding_error_conditions_witness :
    requestEmbedding (.response 200 (.embedding [(1 : Float)])) = .ok [(1 : Float)] :=
  (requestEmbedding_error_conditions (.response 200 (.embedding [(1 : Float)]))).2
    [(1 : Float)] (by simp)

/-! ## Retry loop lemmas -/

theorem retryLoop_of_gt (env : RetryEnv) (b R attempt : Nat) (le : Option ReqError)
    (h : R < attempt) : retryLoop env b R attempt le = (.exhausted le, 0, []) := by
  rw [retryLoop, dif_neg (by omega)]

theorem retryLoop_zero (env : RetryEnv) (b R : Nat) (le : Option ReqError) :
    retryLoop env b R 0 le
      = match env.request 0 with
        | .ok v => (.ok v, 1, [])
        | .error e =>
          let r := retryLoop env b R 1 (some e)
          (r.1, r.2.1 + 1, r.2.2) := by
  rw [retryLoop, dif_pos (Nat.zero_le R), if_neg (by omega)]

theorem retryLoop_pos (env : RetryEnv) (b R attempt : Nat) (le : Option ReqError)
    (hle : attempt ≤ R) (hpos : 0 < attempt) :
    retryLoop env b R attempt le
      = if env.canceledDuringWait attempt then (.ctxCanceled, 0, [])
        else
          match env.request attempt with
          | .ok v => (.ok v, 1, [b * 2 ^ (attempt - 1)])
          | .error e =>
            let r := retryLoop env b R (attempt + 1) (some e)
            (r.1, r.2.1 + 1, b * 2 ^ (attempt - 1) :: r.2.2) := by
  rw [retryLoop, dif_pos hle, if_pos hpos]

theorem retryLoop_attempts_le (env : RetryEnv) (b R : Nat) :
    ∀ n attempt le, R + 1 - attempt ≤ n →
      (retryLoop env b R attempt le).2.1 ≤ R + 1 - attempt := by
  intro n
  induction n with
  | zero =>
    intro attempt le hn
    rw [retryLoop_of_gt env b R attempt le (by omega)]
    simp
  | succ n ih =>
    intro attempt le hn
    by_cases hle : attempt ≤ R
    · by_cases hpos : 0 < attempt
      · rw [retryLoop_pos env b R attempt le hle hpos]
        by_cases hcanc : env.canceledDuringWait attempt
        · rw [if_pos hcanc]; simp
        · rw [if_neg hcanc]
          cases hreq : env.request attempt with
          | ok v => exact show (1 : Nat) ≤ R + 1 - attempt by omega
          | error e =>
            have := ih (attempt + 1) (some e) (by omega)
            exact show (retryLoop env b R (attempt + 1) (some e)).2.1 + 1
              ≤ R + 1 - attempt by omega
      · have h0 : attempt = 0 := by omega
        subst h0
        rw [retryLoop_zero env b R le]
        cases hreq : env.request 0 with
        | ok v => exact show (1 : Nat) ≤ R + 1 - 0 by omega
        | error e =>
          have := ih 1 (some e) (by omega)
          exact show (retryLoop env b R 1 (some e)).2.1 + 1 ≤ R + 1 - 0 by omega
    · rw [retryLoop_of_gt env b R attempt le (by omega)]
      simp

theorem retryLoop_waits (env : RetryEnv) (b R : Nat) :
    ∀ n attempt le, R + 1 - attempt ≤ n → attempt ≤ R + 1 →
      ∃ m, m + max attempt 1 ≤ R + 1 ∧
        (retryLoop env b R attempt le).2.2
          = (List.range' (max attempt 1) m).map (fun k => b * 2 ^ (k - 1)) := by
  intro n
  induction n with
  | zero =>
    intro attempt le hn hub
    rw [retryLoop_of_gt env b R attempt le (by omega)]
    exact ⟨0, by omega, by simp⟩
  | succ n ih =>
    intro attempt le hn hub
    by_cases hle : attempt ≤ R
    · by_cases hpos : 0 < attempt
      · rw [retryLoop_pos env b R attempt le hle hpos]
        by_cases hcanc : env.canceledDuringWait attempt
        · rw [if_pos hcanc]
          exact ⟨0, by omega, by simp⟩
        · rw [if_neg hcanc]
          cases hreq : env.request attempt with
          | ok v =>
            refine ⟨1, by omega, ?_⟩
            rw [Nat.max_eq_left hpos]
            simp
          | error e =>
            obtain ⟨m, hm, hws⟩ := ih (attempt + 1) (some e) (by omega) (by omega)
            refine ⟨m + 1, by omega, ?_⟩
            simp only [hreq, hws]
            rw [Nat.max_eq_left hpos, Nat.max_eq_left (by omega),
              List.range'_succ, List.map_cons]
      · have h0 : attempt = 0 := by omega
        subst h0
        rw [retryLoop_zero env b R le]
        cases hreq : env.request 0 with
        | ok v => exact ⟨0, by omega, by simp⟩
        | error e =>
          obtain ⟨m, hm, hws⟩ := ih 1 (some e) (by omega) (by omega)
          exact ⟨m, by omega, by simpa using hws⟩
    · rw [retryLoop_of_gt env b R attempt le (by omega)]
      refine ⟨0, by omega, by simp⟩

theorem retryLoop_cancellation (env : RetryEnv) (b R : Nat) :
    ∀ n attempt le k, R + 1 - attempt ≤ n → attempt ≤ k → k ≤ R → 1 ≤ k →
      env.canceledDuringWait k = true →
      (∀ j, attempt ≤ j → j < k → ∃ e, env.request j = .error e) →
      (∀ j, 1 ≤ j → j < k → env.canceledDuringWait j = false) →
      (retryLoop env b R attempt le).1 = .ctxCanceled
      ∧ (retryLoop env b R attempt le).2.1 = k - attempt := by
  intro n
  induction n with
  | zero =>
    intro attempt le k hn hak hkR _ _ _ _
    omega
  | succ n ih =>
    intro attempt le k hn hak hkR hk1 hck hreqs hncs
    rcases Nat.eq_or_lt_of_le hak with heq | hlt
    · rw [← heq] at hkR hk1 hck
      rw [retryLoop_pos env b R attempt le hkR hk1, if_pos hck]
      refine ⟨rfl, ?_⟩
      show (0 : Nat) = k - attempt
      omega
    · by_cases hpos : 0 < attempt
      · rw [retryLoop_pos env b R attempt le (by omega) hpos,
          if_neg (by rw [hncs attempt hpos hlt]; simp)]
        obtain ⟨e, he⟩ := hreqs attempt (Nat.le_refl attempt) hlt
        have hrec := ih (attempt + 1) (some e) k (by omega) (by omega) hkR hk1 hck
          (fun j h1 h2 => hreqs j (by omega) h2) hncs
        simp only [he]
        refine ⟨hrec.1, ?_⟩
        show (retryLoop env b R (attempt + 1) (some e)).2.1 + 1 = k - attempt
        rw [hrec.2]
        omega
      · have h0 : attempt = 0 := by omega
        subst h0
        rw [retryLoop_zero env b R le]
        obtain ⟨e, he⟩ := hreqs 0 (Nat.le_refl 0) hlt
        have hrec := ih 1 (some e) k (by omega) (by omega) hkR hk1 hck
          (fun j h1 h2 => hreqs j (by omega) h2) hncs
        simp only [he]
        refine ⟨hrec.1, ?_⟩
        show (retryLoop env b R 1 (some e)).2.1 + 1 = k - 0
        rw [hrec.2]
        omega

theorem retryLoop_exhaustion (env : RetryEnv) (b R : Nat) :
    ∀ n attempt le, R + 1 - attempt ≤ n → attempt ≤ R →
      (∀ j, attempt ≤ j → j ≤ R → ∃ e, env.request j = .error e) →
      (∀ j, 1 ≤ j → j ≤ R → env.canceledDuringWait j = false) →
      ∀ e, env.request R = .error e →
        (retryLoop env b R attempt le).1 = .exhausted (some e) := by
  intro n
  induction n with
  | zero =>
    intro attempt le hn hle _ _ _ _
    omega
  | succ n ih =>
    intro attempt le hn hle hreqs hncs e he
    rcases Nat.eq_or_lt_of_le hle with heq | hlt
    · have hatt : env.request attempt = .error e := by rw [heq]; exact he
      by_cases hpos : 0 < attempt
      · rw [retryLoop_pos env b R attempt le (by omega) hpos,
          if_neg (by rw [hncs attempt hpos (by omega)]; simp)]
        simp only [hatt]
        rw [retryLoop_of_gt env b R (attempt + 1) (some e) (by omega)]
      · have h0 : attempt = 0 := by omega
        rw [h0] at hatt
        subst h0
        rw [retryLoop_zero env b R le]
        simp only [hatt]
        rw [retryLoop_of_gt env b R 1 (some e) (by omega)]
    · by_cases hpos : 0 < attempt
      · rw [retryLoop_pos env b R attempt le (by omega) hpos,
          if_neg (by rw [hncs attempt hpos (by omega)]; simp)]
        obtain ⟨e2, he2⟩ := hreqs attempt (Nat.le_refl attempt) (by omega)
        simp only [he2]
        exact ih (attempt + 1) (some e2) (by omega) (by omega)
          (fun j h1 h2 => hreqs j (by omega) h2) hncs e he
      · have h0 : attempt = 0 := by omega
        subst h0
        rw [retryLoop_zero env b R le]
        obtain ⟨e2, he2⟩ := hreqs 0 (Nat.le_refl 0) (by omega)
        simp only [he2]
        exact ih 1 (some e2) (by omega) (by omega)
          (fun j h1 h2 => hreqs j (by omega) h2) hncs e he

/-- C2: under the default configuration (3 retries, 1-second base
backoff), `GetEmbedding` makes at most `1 + 3` request attempts; the
completed backoff waits are exactly `backoff * 2^(k-1)` nanoseconds
before retry `k` for `k = 1, ..., m` with `m ≤ 3`; if the cancellation
context fires during the wait before retry `k` (all earlier attempts
having failed and no earlier wait having been cancelled) the call
returns the cancellation error immediately, having made exactly the `k`
earlier attempts and no more; and when all `4` attempts fail without
cancellation the call returns the aggregated error wrapping the last
underlying cause. -/
theorem getEmbedding_retry_policy (env : RetryEnv) :
    (GetEmbedding env).2.1 ≤ 1 + defaultRetries
    ∧ (∃ m, m ≤ defaultRetries ∧
        (GetEmbedding env).2.2
          = (List.range' 1 m).map (fun k => oneSecondNs * 2 ^ (k - 1)))
    ∧ (∀ k, 1 ≤ k → k ≤ defaultRetries → env.canceledDuringWait k = true →
        (∀ j, j < k → ∃ e, env.request j = .error e) →
        (∀ j, 1 ≤ j → j < k → env.canceledDuringWait j = false) →
        (GetEmbedding env).1 = .ctxCanceled ∧ (GetEmbedding env).2.1 = k)
    ∧ ((∀ j, j ≤ defaultRetries → ∃ e, env.request j = .error e) →
       (∀ j, 1 ≤ j → j ≤ defaultRetries → env.canceledDuringWait j = false) →
       ∀ e, env.request defaultRetries = .error e →
         (GetEmbedding env).1 = .exhausted (some e)) := by
  refine ⟨?_, ?_, ?_, ?_⟩
  · have := retryLoop_attempts_le env oneSecondNs defaultRetries
      (defaultRetries + 1) 0 none (by omega)
    unfold GetEmbedding
    omega
  · obtain ⟨m, hm, hws⟩ := retryLoop_waits env oneSecondNs defaultRetries
      (defaultRetries + 1) 0 none (by omega) (by omega)
    exact ⟨m, by omega, by simpa using hws⟩
  · intro k hk1 hkR hck hreqs hncs
    have := retryLoop_cancellation env oneSecondNs defaultRetries
      (defaultRetries + 1) 0 none k (by omega) (Nat.zero_le k) hkR hk1 hck
      (fun j _ h2 => hreqs j h2) hncs
    exact ⟨this.1, by have h2 := this.2; unfold GetEmbedding; omega⟩
  · intro hreqs hncs e he
    exact retryLoop_exhaustion env oneSecondNs defaultRetries
      (defaultRetries + 1) 0 none (by omega) (Nat.zero_le _)
      (fun j _ h2 => hreqs j h2) hncs e he

/-- Environment in which every request attempt fails with a network
error and cancellation never fires. -/
def allFailEnv : RetryEnv :=
  ⟨fun _ => .error .netErr, fun _ => false⟩

/-- Witness for C2: with every attempt failing and no cancellation, the
call returns the aggregated error wrapping the last cause. -/
theorem getEmbedding_retry_policy_witness :
    (GetEmbedding allFailEnv).1 = .exhausted (some .netErr) :=
  (getEmbedding_retry_policy allFailEnv).2.2.2
    (fun _ _ => ⟨.netErr, rfl⟩) (fun _ _ _ => rfl) .netErr rfl

/-! ## Record writer (`internal/ingest/writer.go`)

The output file handle is modelled by the list of records appended so
far plus a `closed` flag.  Writing on a closed handle fails with an I/O
error, which is Go's documented `os.File` behaviour
(`ErrClosed`); disk failures on an open handle are injected by the
environment through `ioFail`.  `uuid.New()` is modelled as a fresh
identifier drawn from a counter, and the RFC 3339 `CreatedAt` timestamp
as an opaque stamp from the same counter; neither is inspected by any
claim. -/

/-- One line of the JSONL output (`ingest.VectorRecord`). -/
structure VectorRecord where
  ID : Nat
  SourceFile : String
  ChunkIndex : Nat
  Text : List Char
  Embedding : List Float
  WordCount : Nat
  CreatedAt : Nat

/-- I/O errors surfaced by the writer. -/
inductive IOErr where
  | fileClosed : IOErr
  | diskErr : IOErr
deriving Repr, DecidableEq

/-- The writer (`ingest.Writer`) together with the state of its
underlying append-mode file handle. -/
structure WriterS where
  closed : Bool
  records : List VectorRecord
  writeCount : Nat
  ioFail : Nat → Bool

/-- The record assembled by `WriteRecord` for one chunk. -/
def mkRecord (w : WriterS) (sourceFile : String) (c : Chunk)
    (emb : List Float) : VectorRecord :=
  { ID := w.writeCount, SourceFile := sourceFile, ChunkIndex := c.Index,
    Text := c.Text, Embedding := emb, WordCount := c.WordCount,
    CreatedAt := w.writeCount }

/-- `Writer.WriteRecord`: assemble a record and append it as one line.
A write on a closed handle fails; otherwise the environment may inject a
disk error; otherwise the record is appended.  (`json.Marshal` of a
`VectorRecord` cannot fail and is not a modelled error source.) -/
def WriteRecord (w : WriterS) (sourceFile : String) (c : Chunk)
    (emb : List Float) : Except IOErr WriterS :=
  if w.closed then .error .fileClosed
  else if w.ioFail w.writeCount then .error .diskErr
  else .ok { w with records := w.records ++ [mkRecord w sourceFile c emb],
                    writeCount := w.writeCount + 1 }

/-- `Writer.Close`: close the underlying file handle. -/
def CloseWriter (w : WriterS) : WriterS :=
  { w with closed := true }

/-- C9: after `Close`, every subsequent `WriteRecord` call returns an
I/O error — the handle stays closed, so this holds for every later call,
for every record; in the model `WriteRecord` is a total function
returning an explicit error value, so it neither silently succeeds nor
panics. -/
theorem writeRecord_after_close_fails (w : WriterS) (sourceFile : String)
    (c : Chunk) (emb : List Float) :
    WriteRecord (CloseWriter w) sourceFile c emb = .error .fileClosed
    ∧ (CloseWriter w).closed = true := by
  constructor
  · unfold WriteRecord CloseWriter
    simp
  · rfl

/-! ## Orchestrator (`internal/ingest/processor.go`)

The environment of one run: the health-check outcome, the `NewWriter`
outcome, the list of discovered `.txt` files in discovery order (each
with its relative path and its content, or `none` when `ChunkFile`
cannot read it), and the per-chunk `GetEmbedding` outcome (keyed by
relative path and chunk; `none` models retries exhausted).  `Process`
uses `context.Background()`, which never fires, so cancellation does not
appear here. -/

/-- One discovered file: relative path and readable content (`none`
when opening/reading the file fails). -/
structure FileEntry where
  relPath : String
  content : Option (List Char)

/-- Environment of one `Processor.Process` run. -/
structure ProcEnv where
  healthOk : Bool
  writerInit : Except IOErr WriterS
  files : List FileEntry
  embed : String → Chunk → Option (List Float)

/-- Failure of one chunk inside `processFile`, carrying the chunk index
from the `"failed to process chunk %d"` wrapping. -/
inductive ChunkFailure where
  | embedFailed : Nat → ChunkFailure
  | writeFailed : Nat → IOErr → ChunkFailure
deriving Repr, DecidableEq

/-- The chunk index carried by a chunk failure. -/
def failIdx : ChunkFailure → Nat
  | .embedFailed i => i
  | .writeFailed i _ => i

/-- Failure of one file inside the `Process` loop. -/
inductive FileFailure where
  | chunkFileFailed : FileFailure
  | chunkFailed : ChunkFailure → FileFailure
deriving Repr, DecidableEq

/-- Fatal errors of `Process`. -/
inductive Fatal where
  | healthCheckFailed : Fatal
  | writerInitFailed : IOErr → Fatal
deriving Repr, DecidableEq

/-- Run statistics (`ingest.ProcessorStats`); the wall-clock
`StartTime`/`EndTime` fields are not modelled. -/
structure ProcessorStats where
  FilesProcessed : Nat
  FilesSkipped : Nat
  ChunksCreated : Nat
  TotalErrors : Nat
deriving Repr, DecidableEq

/-- The zero statistics a run starts with. -/
def initStats : ProcessorStats := ⟨0, 0, 0, 0⟩

/-- `Processor.processChunk`: fetch the embedding, then write the
record. -/
def processChunk (env : ProcEnv) (w : WriterS) (relPath : String)
    (c : Chunk) : Except ChunkFailure WriterS :=
  match env.embed relPath c with
  | none => .error (.embedFailed c.Index)
  | some emb =>
    match WriteRecord w relPath c emb with
    | .error e => .error (.writeFailed c.Index e)
    | .ok w2 => .ok w2

/-- The chunk loop of `processFile`: process chunks in order; a failure
aborts the remaining chunks (the writer state reached so far is kept);
`ChunksCreated` is incremented once per successfully processed chunk.
Returns (failure?, writer, number of chunks counted). -/
def processChunksLoop (env : ProcEnv) (relPath : String) :
    List Chunk → WriterS → Option ChunkFailure × WriterS × Nat
  | [], w => (none, w, 0)
  | c :: cs, w =>
    match processChunk env w relPath c with
    | .error e => (some e, w, 0)
    | .ok w2 =>
      let r := processChunksLoop env relPath cs w2
      (r.1, r.2.1, r.2.2 + 1)

/-- `Processor.processFile`: chunk the file (a read failure marks the
file failed), then run the chunk loop; a file producing zero chunks
succeeds immediately. -/
def processFile (env : ProcEnv) (S : Nat) (w : WriterS) (f : FileEntry) :
    Option FileFailure × WriterS × Nat :=
  match f.content with
  | none => (some .chunkFileFailed, w, 0)
  | some text =>
    let r := processChunksLoop env f.relPath (ChunkText S text) w
    (r.1.map .chunkFailed, r.2.1, r.2.2)

/-- The body of the file loop in `Process`: a failing file increments
`FilesSkipped` and `TotalErrors` and the run continues; a successful one
increments `FilesProcessed`; either way the chunks counted inside
`processFile` are added to `ChunksCreated`. -/
def procStep (env : ProcEnv) (S : Nat) (acc : ProcessorStats × WriterS)
    (f : FileEntry) : ProcessorStats × WriterS :=
  let r := processFile env S acc.2 f
  match r.1 with
  | some _ =>
    ({ acc.1 with FilesSkipped := acc.1.FilesSkipped + 1,
                  TotalErrors := acc.1.TotalErrors + 1,
                  ChunksCreated := acc.1.ChunksCreated + r.2.2 }, r.2.1)
  | none =>
    ({ acc.1 with FilesProcessed := acc.1.FilesProcessed + 1,
                  ChunksCreated := acc.1.ChunksCreated + r.2.2 }, r.2.1)

/-- `Processor.Process`: health-check first (fatal on failure, before
the writer is even constructed), then initialize the writer (fatal on
failure), then fold the file loop over the discovered files.  Per-file
and per-chunk failures never make the run fail: once both startup steps
succeed the run returns success.  (The Go early return on an empty
discovery list coincides with folding over `[]`.) -/
def Process (env : ProcEnv) (S : Nat) :
    Except Fatal (ProcessorStats × WriterS) :=
  if env.healthOk = false then .error .healthCheckFailed
  else
    match env.writerInit with
    | .error e => .error (.writerInitFailed e)
    | .ok w0 => .ok (env.files.foldl (procStep env S) (initStats, w0))

/-! ## Orchestrator lemmas -/

/-- The chunk indices of any `ChunkText` output are strictly
increasing. -/
theorem chunkText_index_pairwise (S : Nat) (text : List Char) :
    ((ChunkText S text).map Chunk.Index).Pairwise (· < ·) := by
  by_cases ht : trimC text = []
  · have h : ChunkText S text = [] := by
      unfold ChunkText
      rw [if_pos ht]
    rw [h]
    simp
  · by_cases h0 : tokenizeWords (trimC text) = []
    · have h : ChunkText S text = [] := by
        unfold ChunkText
        rw [if_neg ht, if_pos h0]
      rw [h]
      simp
    · by_cases hle : (tokenizeWords (trimC text)).length ≤ S
      · rw [ChunkText_single S text h0 hle]
        simp
      · push_neg at hle
        rw [ChunkText_multi S text hle]
        exact buildChunks_index_pairwise _ 0

theorem processChunk_error_idx (env : ProcEnv) (w : WriterS) (relPath : String)
    (c : Chunk) (e : ChunkFailure) (h : processChunk env w relPath c = .error e) :
    failIdx e = c.Index := by
  cases hemb : env.embed relPath c with
  | none =>
    simp only [processChunk, hemb] at h
    cases h
    rfl
  | some emb =>
    simp only [processChunk, hemb] at h
    cases hwr : WriteRecord w relPath c emb with
    | error e2 =>
      simp only [hwr] at h
      cases h
      rfl
    | ok w2 =>
      simp only [hwr] at h
      cases h

theorem processChunk_ok_record (env : ProcEnv) (w : WriterS) (relPath : String)
    (c : Chunk) (w2 : WriterS) (h : processChunk env w relPath c = .ok w2) :
    ∃ rec, w2.records = w.records ++ [rec]
      ∧ rec.SourceFile = relPath ∧ rec.ChunkIndex = c.Index := by
  cases hemb : env.embed relPath c with
  | none =>
    simp only [processChunk, hemb] at h
    cases h
  | some emb =>
    simp only [processChunk, hemb] at h
    cases hwr : WriteRecord w relPath c emb with
    | error e2 =>
      simp only [hwr] at h
      cases h
    | ok w3 =>
      simp only [hwr] at h
      cases h
      unfold WriteRecord at hwr
      split at hwr
      · cases hwr
      · split at hwr
        · cases hwr
        · cases hwr
          exact ⟨mkRecord w relPath c emb, rfl, rfl, rfl⟩

/-- Full characterization of the chunk loop: the writer grows by one
record per counted chunk, the new records carry the file's relative path
and exactly the indices of the first `n` chunks, and on failure the
failing chunk is the `(n+1)`-st with its index carried in the error. -/
theorem processChunksLoop_spec (env : ProcEnv) (relPath : String) :
    ∀ (cs : List Chunk) (w : WriterS),
      ∃ Δ, (processChunksLoop env relPath cs w).2.1.records = w.records ++ Δ
        ∧ (processChunksLoop env relPath cs w).2.2 = Δ.length
        ∧ Δ.map VectorRecord.ChunkIndex
            = (cs.take (processChunksLoop env relPath cs w).2.2).map Chunk.Index
        ∧ (∀ rec ∈ Δ, rec.SourceFile = relPath)
        ∧ ∀ e, (processChunksLoop env relPath cs w).1 = some e →
            ∃ c rest,
              cs.drop (processChunksLoop env relPath cs w).2.2 = c :: rest
              ∧ failIdx e = c.Index := by
  intro cs
  induction cs with
  | nil =>
    intro w
    refine ⟨[], by simp [processChunksLoop], by simp [processChunksLoop],
      by simp [processChunksLoop], by simp, ?_⟩
    intro e he
    simp [processChunksLoop] at he
  | cons c cs ih =>
    intro w
    cases hpc : processChunk env w relPath c with
    | error e =>
      have hloop : processChunksLoop env relPath (c :: cs) w = (some e, w, 0) := by
        show (match processChunk env w relPath c with
          | .error e => (some e, w, 0)
          | .ok w2 =>
            let r := processChunksLoop env relPath cs w2
            (r.1, r.2.1, r.2.2 + 1)) = (some e, w, 0)
        rw [hpc]
      refine ⟨[], by rw [hloop]; simp, by rw [hloop]; rfl, by rw [hloop]; simp,
        by simp, ?_⟩
      intro e2 he2
      rw [hloop] at he2 ⊢
      cases he2
      exact ⟨c, cs, rfl, processChunk_error_idx env w relPath c e hpc⟩
    | ok w2 =>
      obtain ⟨rec, hrec, hsf, hidx⟩ := processChunk_ok_record env w relPath c w2 hpc
      obtain ⟨Δ, h1, h2, h3, h4, h5⟩ := ih w2
      have hloop : processChunksLoop env relPath (c :: cs) w
          = ((processChunksLoop env relPath cs w2).1,
             (processChunksLoop env relPath cs w2).2.1,
             (processChunksLoop env relPath cs w2).2.2 + 1) := by
        show (match processChunk env w relPath c with
          | .error e => (some e, w, 0)
          | .ok w2 =>
            let r := processChunksLoop env relPath cs w2
            (r.1, r.2.1, r.2.2 + 1)) = _
        rw [hpc]
      refine ⟨rec :: Δ, ?_, ?_, ?_, ?_, ?_⟩
      · rw [hloop]
        show (processChunksLoop env relPath cs w2).2.1.records = _
        rw [h1, hrec]
        simp
      · rw [hloop]
        show (processChunksLoop env relPath cs w2).2.2 + 1 = _
        rw [h2]
        rfl
      · rw [hloop]
        show (rec :: Δ).map VectorRecord.ChunkIndex
          = ((c :: cs).take ((processChunksLoop env relPath cs w2).2.2 + 1)).map
              Chunk.Index
        rw [List.take_succ_cons, List.map_cons, List.map_cons, h3, hidx]
      · intro r hr
        rcases List.mem_cons.mp hr with h | h
        · subst h; exact hsf
        · exact h4 r h
      · intro e he
        rw [hloop] at he ⊢
        obtain ⟨cf, rest, hd, hfi⟩ := h5 e he
        exact ⟨cf, rest, by rw [List.drop_succ_cons]; exact hd, hfi⟩

/-- `processFile` only appends records, one per counted chunk. -/
theorem processFile_records (env : ProcEnv) (S : Nat) (w : WriterS)
    (f : FileEntry) :
    ∃ Δ, (processFile env S w f).2.1.records = w.records ++ Δ
      ∧ (processFile env S w f).2.2 = Δ.length := by
  unfold processFile
  cases f.content with
  | none => exact ⟨[], by simp, rfl⟩
  | some text =>
    obtain ⟨Δ, h1, h2, _, _, _⟩ :=
      processChunksLoop_spec env f.relPath (ChunkText S text) w
    exact ⟨Δ, h1, h2⟩

/-- A file that fails on a chunk appends only records of that file with
indices strictly below the failing chunk's index. -/
theorem processFile_partial_records (env : ProcEnv) (S : Nat) (w : WriterS)
    (f : FileEntry) (cf : ChunkFailure) (w2 : WriterS) (n : Nat)
    (h : processFile env S w f = (some (.chunkFailed cf), w2, n)) :
    ∃ Δ, w2.records = w.records ++ Δ
      ∧ n = Δ.length
      ∧ ∀ rec ∈ Δ, rec.SourceFile = f.relPath ∧ rec.ChunkIndex < failIdx cf := by
  unfold processFile at h
  cases hc : f.content with
  | none =>
    rw [hc] at h
    cases h
  | some text =>
    rw [hc] at h
    obtain ⟨Δ, h1, h2, h3, h4, h5⟩ :=
      processChunksLoop_spec env f.relPath (ChunkText S text) w
    have hw2 : w2 = (processChunksLoop env f.relPath (ChunkText S text) w).2.1 := by
      have := congrArg (fun p => p.2.1) h
      exact this.symm
    have hn : n = (processChunksLoop env f.relPath (ChunkText S text) w).2.2 := by
      have := congrArg (fun p => p.2.2) h
      exact this.symm
    have hfail : (processChunksLoop env f.relPath (ChunkText S text) w).1
        = some cf := by
      have h0 := congrArg (fun p => p.1) h
      simp only at h0
      cases hopt : (processChunksLoop env f.relPath (ChunkText S text) w).1 with
      | none => rw [hopt] at h0; cases h0
      | some x =>
        rw [hopt] at h0
        simp only [Option.map_some'] at h0
        cases h0
        rfl
    obtain ⟨cfail, rest, hdrop, hfi⟩ := h5 cf hfail
    refine ⟨Δ, by rw [hw2]; exact h1, by rw [hn]; exact h2, ?_⟩
    intro rec hrec
    refine ⟨h4 rec hrec, ?_⟩
    -- the indices of the taken prefix are strictly below the failing index
    have hmem : rec.ChunkIndex ∈ Δ.map VectorRecord.ChunkIndex :=
      List.mem_map_of_mem VectorRecord.ChunkIndex hrec
    rw [h3] at hmem
    have hpw := chunkText_index_pairwise S text
    set cs := ChunkText S text with hcs
    set m := (processChunksLoop env f.relPath cs w).2.2 with hm
    have hsplit : cs.map Chunk.Index
        = (cs.take m).map Chunk.Index ++ (cs.drop m).map Chunk.Index := by
      rw [← List.map_append, List.take_append_drop]
    rw [hsplit] at hpw
    have hlt := (List.pairwise_append.mp hpw).2.2
    have hcmem : cfail.Index ∈ (cs.drop m).map Chunk.Index := by
      rw [hdrop]
      simp
    rw [hfi]
    exact hlt rec.ChunkIndex hmem cfail.Index hcmem

/-- The step of the file loop on a failing file: skip and error counters
go up by one, the counted chunks are added, the writer is the one the
failing `processFile` returned. -/
theorem procStep_failure (env : ProcEnv) (S : Nat) (st : ProcessorStats)
    (w : WriterS) (f : FileEntry) (e : FileFailure) (w2 : WriterS) (n : Nat)
    (h : processFile env S w f = (some e, w2, n)) :
    procStep env S (st, w) f
      = ({ st with FilesSkipped := st.FilesSkipped + 1,
                   TotalErrors := st.TotalErrors + 1,
                   ChunksCreated := st.ChunksCreated + n }, w2) := by
  unfold procStep
  show (match (processFile env S w f).1 with
    | some _ => _
    | none => _) = _
  rw [h]

theorem procStep_chunksCreated (env : ProcEnv) (S : Nat)
    (st : ProcessorStats) (w : WriterS) (f : FileEntry) :
    (procStep env S (st, w) f).1.ChunksCreated
      = st.ChunksCreated + (processFile env S w f).2.2
    ∧ (procStep env S (st, w) f).2 = (processFile env S w f).2.1 := by
  unfold procStep
  cases h : (processFile env S w f).1 with
  | none =>
    constructor
    · show ((match (processFile env S w f).1 with
        | some _ => _
        | none => _) : ProcessorStats × WriterS).1.ChunksCreated = _
      rw [h]
    · show ((match (processFile env S w f).1 with
        | some _ => _
        | none => _) : ProcessorStats × WriterS).2 = _
      rw [h]
  | some e =>
    constructor
    · show ((match (processFile env S w f).1 with
        | some _ => _
        | none => _) : ProcessorStats × WriterS).1.ChunksCreated = _
      rw [h]
    · show ((match (processFile env S w f).1 with
        | some _ => _
        | none => _) : ProcessorStats × WriterS).2 = _
      rw [h]

/-- Fold invariant: across the file loop, `ChunksCreated` grows by
exactly the number of records appended to the writer. -/
theorem procFold_records (env : ProcEnv) (S : Nat) :
    ∀ (fs : List FileEntry) (st : ProcessorStats) (w : WriterS),
      ∃ Δ, (fs.foldl (procStep env S) (st, w)).2.records = w.records ++ Δ
        ∧ (fs.foldl (procStep env S) (st, w)).1.ChunksCreated
            = st.ChunksCreated + Δ.length := by
  intro fs
  induction fs with
  | nil => intro st w; exact ⟨[], by simp, by simp⟩
  | cons f fs ih =>
    intro st w
    obtain ⟨hcc, hw⟩ := procStep_chunksCreated env S st w f
    obtain ⟨Δ1, hr1, hn1⟩ := processFile_records env S w f
    obtain ⟨st1, w1, hstep⟩ : ∃ st1 w1, procStep env S (st, w) f = (st1, w1) :=
      ⟨_, _, rfl⟩
    obtain ⟨Δ2, hr2, hn2⟩ := ih st1 w1
    refine ⟨Δ1 ++ Δ2, ?_, ?_⟩
    · rw [List.foldl_cons, hstep, hr2]
      have hw1 : w1.records = w.records ++ Δ1 := by
        rw [← hr1, ← hw, hstep]
      rw [hw1, List.append_assoc]
    · rw [List.foldl_cons, hstep, hn2]
      have hst1 : st1.ChunksCreated = st.ChunksCreated + Δ1.length := by
        rw [← hn1, ← hcc, hstep]
      rw [hst1, List.length_append]
      omega

/-! ## Claim theorems about the orchestrator -/

/-- C6: when the startup health check fails, `Process` returns the
fatal health-check error before the Record Writer is constructed: the
outcome is the same whatever `NewWriter` would have produced (so no
output file is created, opened, or appended to) and whatever files and
embedding outcomes the rest of the run would have seen (so no chunk is
processed in that run). -/
theorem process_health_check_fatal (env : ProcEnv) (S : Nat)
    (h : env.healthOk = false) :
    Process env S = .error .healthCheckFailed
    ∧ ∀ wi fs em,
        Process { env with writerInit := wi, files := fs, embed := em } S
          = .error .healthCheckFailed := by
  constructor
  · unfold Process
    rw [h]
    rfl
  · intro wi fs em
    unfold Process
    rw [show ({ env with writerInit := wi, files := fs, embed := em }
      : ProcEnv).healthOk = false from h]
    rfl

/-- Environment whose health check fails. -/
def healthFailEnv : ProcEnv :=
  ⟨false, .ok ⟨false, [], 0, fun _ => false⟩, [], fun _ _ => none⟩

/-- Witness for C6. -/
theorem process_health_check_fatal_witness :
    Process healthFailEnv 5 = .error .healthCheckFailed :=
  (process_health_check_fatal healthFailEnv 5 rfl).1

/-- C3: once the health check and writer initialization succeed, the run
always returns success, regardless of any per-file or per-chunk
failures; when embedding or writing fails for a chunk of a file, the
writer keeps exactly the records already written (all for that file,
all with chunk index strictly below the failing chunk's index — in
particular no record with a higher index is ever written for that file);
and the file loop counts such a file as skipped, incrementing the error
counter, before continuing with the next file. -/
theorem process_chunk_failure_isolated (env : ProcEnv) (S : Nat)
    (hh : env.healthOk = true) (w0 : WriterS) (hw : env.writerInit = .ok w0) :
    (∃ st wend, Process env S = .ok (st, wend))
    ∧ (∀ (w : WriterS) (f : FileEntry) (cf : ChunkFailure) (w2 : WriterS)
        (n : Nat),
        processFile env S w f = (some (.chunkFailed cf), w2, n) →
        ∃ Δ, w2.records = w.records ++ Δ
          ∧ ∀ rec ∈ Δ, rec.SourceFile = f.relPath
              ∧ rec.ChunkIndex < failIdx cf)
    ∧ (∀ (st : ProcessorStats) (w : WriterS) (f : FileEntry) (e : FileFailure)
        (w2 : WriterS) (n : Nat),
        processFile env S w f = (some e, w2, n) →
        procStep env S (st, w) f
          = ({ st with FilesSkipped := st.FilesSkipped + 1,
                       TotalErrors := st.TotalErrors + 1,
                       ChunksCreated := st.ChunksCreated + n }, w2)) := by
  refine ⟨?_, ?_, ?_⟩
  · refine ⟨(env.files.foldl (procStep env S) (initStats, w0)).1,
      (env.files.foldl (procStep env S) (initStats, w0)).2, ?_⟩
    unfold Process
    rw [hh, hw]
    rfl
  · intro w f cf w2 n hpf
    obtain ⟨Δ, h1, _, h3⟩ := processFile_partial_records env S w f cf w2 n hpf
    exact ⟨Δ, h1, h3⟩
  · intro st w f e w2 n hpf
    exact procStep_failure env S st w f e w2 n hpf

/-- An initial writer over an empty output file, with no injected disk
errors. -/
def freshWriter : WriterS := ⟨false, [], 0, fun _ => false⟩

/-- A healthy one-file environment where every chunk embeds
successfully. -/
def oneFileEnv : ProcEnv :=
  ⟨true, .ok freshWriter, [⟨"a.txt", some "hello world".toList⟩],
    fun _ _ => some [(1 : Float)]⟩

/-- Witness for C3: both startup steps succeed, so the run returns
success. -/
theorem process_chunk_failure_isolated_witness :
    ∃ st wend, Process oneFileEnv 10 = .ok (st, wend) :=
  (process_chunk_failure_isolated oneFileEnv 10 rfl freshWriter rfl).1

/-- C10: `ChunksCreated` counts exactly the records appended to the
output during the run — not the chunks the Chunker produced.  (A chunk
whose embedding or write fails appends nothing and is not counted, and
neither are the abandoned later chunks of its file.) -/
theorem chunksCreated_counts_written (env : ProcEnv) (S : Nat)
    (st : ProcessorStats) (wend : WriterS)
    (h : Process env S = .ok (st, wend)) (w0 : WriterS)
    (hw : env.writerInit = .ok w0) :
    ∃ Δ, wend.records = w0.records ++ Δ ∧ Δ.length = st.ChunksCreated := by
  unfold Process at h
  rw [hw] at h
  by_cases hh : env.healthOk = false
  · rw [if_pos hh] at h
    cases h
  · rw [if_neg hh] at h
    injection h with h2
    obtain ⟨Δ, hr, hn⟩ := procFold_records env S env.files initStats w0
    rw [h2] at hr hn
    have hr2 : wend.records = w0.records ++ Δ := hr
    have hn2 : st.ChunksCreated = 0 + Δ.length := hn
    exact ⟨Δ, hr2, by omega⟩

/-- The writer state after the single-chunk run of `oneFileEnv`. -/
def oneFileWend : WriterS :=
  { closed := false,
    records := [{ ID := 0, SourceFile := "a.txt", ChunkIndex := 0,
                  Text := "hello world".toList, Embedding := [(1 : Float)],
                  WordCount := 2, CreatedAt := 0 }],
    writeCount := 1, ioFail := fun _ => false }

/-- Witness for C10: the one-file run appends one record and reports
`ChunksCreated = 1`. -/
theorem chunksCreated_counts_written_witness :
    ∃ Δ, oneFileWend.records = freshWriter.records ++ Δ ∧ Δ.length = 1 :=
  chunksCreated_counts_written oneFileEnv 10 ⟨1, 0, 1, 0⟩ oneFileWend rfl
    freshWriter rfl

end Wafer
